import Mathlib

/-!
Verification development for a small C++ header-only library that loads
tab-separated values into typed record structures.

The development shallowly embeds the library:

* lines and tokens are `List Char`; an input stream is a `List (List Char)`
  of its lines (`std::getline` on such a stream yields the lines in order
  and then fails with a clean end-of-file);
* exceptions are modelled with `Except`: a thrown `tsv::error` is an
  `.error` value that propagates, a caught-and-rethrown error is rebuilt
  with `{ e with ... }`;
* machine integer types are modelled by their value range (`IntTy`), and
  `std::from_chars` for integer types is modelled by `from_chars`;
* the `tsv::detail::line_reader` object is a `Reader` state record, and its
  member functions are explicit state-passing functions;
* loops (`skip_comment`, `parse_fields`, the `load` loop) are driven by a
  fuel argument that the wrapper instantiates with a provably sufficient
  bound, keeping every definition executable by the kernel.
-/

namespace Tsv

/-- Decidable equality of `Except` results, so that concrete runs of the
embedded functions can be checked by `decide`. -/
instance exceptDecEq {ε α : Type} [DecidableEq ε] [DecidableEq α] :
    DecidableEq (Except ε α) := fun a b =>
  match a, b with
  | .error e1, .error e2 =>
    if h : e1 = e2 then .isTrue (by rw [h]) else .isFalse (by intro hc; cases hc; exact h rfl)
  | .ok v1, .ok v2 =>
    if h : v1 = v2 then .isTrue (by rw [h]) else .isFalse (by intro hc; cases hc; exact h rfl)
  | .error _, .ok _ => .isFalse (by intro hc; cases hc)
  | .ok _, .error _ => .isFalse (by intro hc; cases hc)

/-- The kinds of errors the library can raise: the message constants of
`tsv::format_error`, `tsv::parse_error`, `tsv::io_error`, and a
`tsv::validation_error` carrying the caller-chosen message. -/
inductive ErrKind where
  | format_missing_header
  | format_missing_field
  | format_excess_field
  | parse_unknown
  | parse_out_of_range
  | parse_leftover
  | io_unknown
  | validation (m : String)
deriving DecidableEq, Repr

/-- The `what()` message of each error, from the string constants in the
source (`tsv::format_error::missing_header` and so on). A validation error's
message is the one passed to `tsv::check`. -/
def message : ErrKind → String
  | .format_missing_header => "header is expected but not seen"
  | .format_missing_field => "insufficient number of fields"
  | .format_excess_field => "excess fields"
  | .parse_unknown => "parse error"
  | .parse_out_of_range => "value out of range"
  | .parse_leftover => "excess character(s) at the end of a field"
  | .io_unknown => "input error"
  | .validation m => m

/-- `tsv::error`: a message (`what()`), the content of the offending line
(empty when not available), and the 1-based line number (zero when not
available). `kind` records which exception class and message constant the
error was built from. -/
structure TsvError where
  kind : ErrKind
  msg : String
  line : List Char
  line_number : Nat
deriving DecidableEq, Repr

/-- A freshly thrown error: `throw tsv::xxx_error{message-constant}` sets
only the message; `line` is empty and `line_number` is zero. -/
def mkErr (k : ErrKind) : TsvError :=
  ⟨k, message k, [], 0⟩

/-- The error thrown by `tsv::check(false, m)`: a `tsv::validation_error{m}`
with no line context. -/
def mkValErr (m : String) : TsvError :=
  ⟨.validation m, m, [], 0⟩

/-- `tsv::error::describe()`: starts from `what()`, appends
`" (at line N)"` if the stored line number is nonzero, then appends
`: "<line>"` if the stored line text is non-empty. -/
def describe (e : TsvError) : String :=
  let m1 := e.msg
  let m2 := if e.line_number ≠ 0 then m1 ++ " (at line " ++ toString e.line_number ++ ")" else m1
  let m3 := if ¬ e.line.isEmpty then m2 ++ ": \"" ++ String.mk e.line ++ "\"" else m2
  m3

/-- An integer field type, described by its representable range
(for example `unsigned` is `⟨0, 2^32 - 1⟩`). The type is signed exactly
when its lower bound is negative. -/
structure IntTy where
  lo : Int
  hi : Int
deriving DecidableEq, Repr

/-- Error codes returned by `std::from_chars`. -/
inductive Errc where
  | ok
  | invalid_argument
  | result_out_of_range
deriving DecidableEq, Repr

/-- Result of `std::from_chars`: the parsed value (meaningful only on
`.ok`), the number of characters consumed (`ptr - first`), and the error
code. -/
structure FCResult where
  value : Int
  consumed : Nat
  ec : Errc
deriving DecidableEq, Repr

/-- Numeric value of a list of decimal digit characters, most significant
first (what `std::from_chars` accumulates). -/
def natOfDigits (ds : List Char) : Nat :=
  ds.foldl (fun a c => a * 10 + (c.toNat - '0'.toNat)) 0

/-- `std::from_chars(first, last, value)` for an integer type of range `t`
in base 10: an optional minus sign (only for signed types) followed by a
maximal nonempty run of decimal digits. No digits: `invalid_argument` with
nothing consumed. Digits whose value falls outside the range:
`result_out_of_range` with the whole matched pattern consumed. -/
def from_chars (t : IntTy) (text : List Char) : FCResult :=
  let sgn : Bool × List Char :=
    match text with
    | c :: tl => if c = '-' ∧ t.lo < 0 then (true, tl) else (false, c :: tl)
    | [] => (false, [])
  let ds := sgn.2.takeWhile Char.isDigit
  if ds.isEmpty then ⟨0, 0, .invalid_argument⟩
  else
    let v : Int := if sgn.1 then -(natOfDigits ds : Int) else (natOfDigits ds : Int)
    let n := (if sgn.1 then 1 else 0) + ds.length
    if v < t.lo ∨ t.hi < v then ⟨0, n, .result_out_of_range⟩
    else ⟨v, n, .ok⟩

/-- The values a record field can take in this embedding. -/
inductive Value where
  | num (i : Int)
  | chr (c : Char)
  | str (s : List Char)
deriving DecidableEq, Repr

/-- The field types the embedding supports: integer types with a range,
`char`, and `std::string`. -/
inductive FieldTy where
  | num (t : IntTy)
  | chr
  | str
deriving DecidableEq, Repr

/-- `tsv::detail::default_conversion<T>::parse` for an integer type `T`:
calls `from_chars`; a nonzero error code becomes a `parse_error`
(`out_of_range` for a range failure, the generic `parse error` otherwise);
characters left unconsumed after a successful conversion are the
`leftover` parse error. -/
def parse_num (t : IntTy) (text : List Char) : Except TsvError Value :=
  let r := from_chars t text
  if r.ec ≠ .ok then
    .error (mkErr (if r.ec = .result_out_of_range then .parse_out_of_range else .parse_unknown))
  else if r.consumed ≠ text.length then
    .error (mkErr .parse_leftover)
  else
    .ok (.num r.value)

/-- `tsv::conversion<T>::parse` dispatched on the field type: integer types
use `from_chars` (`parse_num`), `char` requires the token to be exactly one
character, `std::string` accepts the token verbatim. -/
def conv (ty : FieldTy) (text : List Char) : Except TsvError Value :=
  match ty, text with
  | .num t, _ => parse_num t text
  | .chr, [c] => .ok (.chr c)
  | .chr, _ => .error (mkErr .parse_unknown)
  | .str, _ => .ok (.str text)

/-- The split step of `tsv::detail::split_consume` on nonempty text:
the token before the first occurrence of the delimiter paired with the text
after it (the delimiter itself consumed), or the whole text paired with
nothing when the delimiter does not occur. -/
def splitOnce (del : Char) : List Char → List Char × List Char
  | [] => ([], [])
  | c :: cs =>
    if c = del then ([], cs)
    else
      let p := splitOnce del cs
      (c :: p.1, p.2)

/-- `tsv::detail::split_consume`: throws the `missing field` format error
when the remaining text is empty, otherwise splits off the first token. -/
def split_consume (text : List Char) (del : Char) : Except TsvError (List Char × List Char) :=
  match text with
  | [] => .error (mkErr .format_missing_field)
  | _ => .ok (splitOnce del text)

/-- The initializer sequence of `tsv::detail::parse_record`: for each field
type in order, split one token off the remaining text and convert it;
returns the values and the text left after the last field. Errors from
`split_consume` and the conversions propagate (the C++ aggregate
initializer evaluates left to right). -/
def parse_tokens (del : Char) : List FieldTy → List Char → Except TsvError (List Value × List Char)
  | [], text => .ok ([], text)
  | ty :: tys, text =>
    match split_consume text del with
    | .error e => .error e
    | .ok (tok, rest) =>
      match conv ty tok with
      | .error e => .error e
      | .ok v =>
        match parse_tokens del tys rest with
        | .error e => .error e
        | .ok (vs, rem) => .ok (v :: vs, rem)

/-- `tsv::detail::parse_record` (the free function): builds the record from
one token per field, then throws the `excess fields` format error if any
text remains. -/
def parse_record_detail (del : Char) (tys : List FieldTy) (text : List Char) :
    Except TsvError (List Value) :=
  match parse_tokens del tys text with
  | .error e => .error e
  | .ok (vs, rem) => if rem.isEmpty then .ok vs else .error (mkErr .format_excess_field)

/-- One iteration bound of the `parse_fields` tokenizing loop: while the
remaining text is nonempty, split one token off and append it. The fuel is
instantiated with the text length, which bounds the iteration count since
every split strictly shrinks the text. -/
def splitFieldsAux (del : Char) : Nat → List Char → List (List Char)
  | 0, _ => []
  | _, [] => []
  | fuel + 1, c :: cs =>
    let p := splitOnce del (c :: cs)
    p.1 :: splitFieldsAux del fuel p.2

/-- The token list `tsv::detail::parser::parse_fields` appends for one
line: repeated `split_consume` until the remaining text is empty. -/
def split_fields (del : Char) (text : List Char) : List (List Char) :=
  splitFieldsAux del text.length text

/-- The state of a `tsv::detail::line_reader`: the lines not yet read from
the stream, the line buffer `_line`, the counter `_line_number`, and the
lookahead flag `_available`. -/
structure Reader where
  input : List (List Char)
  line : List Char
  lineNum : Nat
  avail : Bool
deriving DecidableEq, Repr

/-- A `line_reader` freshly constructed on a stream holding `ls` lines. -/
def mkReader (ls : List (List Char)) : Reader :=
  ⟨ls, [], 0, false⟩

/-- `line_reader::ensure_line`: keep a buffered line; otherwise read the
next line from the stream, incrementing `_line_number`, or report a clean
end-of-file. (The list-of-lines stream model never fails for another
reason, so the `io_error` branch of the source is unreachable here.) -/
def ensure (s : Reader) : Bool × Reader :=
  if s.avail then (true, s)
  else
    match s.input with
    | [] => (false, s)
    | l :: rest => (true, ⟨rest, l, s.lineNum + 1, true⟩)

/-- `line_reader::consume`: next line and advance past it, or `none` at
end-of-file. -/
def consume (s : Reader) : Option (List Char) × Reader :=
  let p := ensure s
  if p.1 then (some p.2.line, { p.2 with avail := false }) else (none, p.2)

/-- `line_reader::peek`: next line without advancing past it, or `none` at
end-of-file. -/
def peek (s : Reader) : Option (List Char) × Reader :=
  let p := ensure s
  if p.1 then (some p.2.line, p.2) else (none, p.2)

/-- The lines a reader will still yield: the buffered line, if any,
followed by the unread part of the stream. -/
def pending (s : Reader) : List (List Char) :=
  (if s.avail then [s.line] else []) ++ s.input

/-- Number of lines a reader will still yield. -/
def meas (s : Reader) : Nat :=
  (pending s).length

/-- Number of lines the reader has yielded via `consume` so far: the lines
read from the stream minus a line only buffered by a lookahead. -/
def consumed (s : Reader) : Nat :=
  s.lineNum - (if s.avail then 1 else 0)

/-- Whether `parser::skip_comment` skips a line: it is empty or starts
with the comment character. -/
def sk (c : Char) (l : List Char) : Bool :=
  l.isEmpty || l.head? = some c

/-- One iteration bound of the `parser::skip_comment` loop: peek the next
line; consume it and continue while it is empty or starts with the comment
character. Fuel bounds the iterations (each one consumes a line). -/
def skipAux (c : Char) : Nat → Reader → Reader
  | 0, s => s
  | fuel + 1, s =>
    match peek s with
    | (none, s') => s'
    | (some l, s') =>
      if sk c l then skipAux c fuel (consume s').2
      else s'

/-- `tsv::detail::parser::skip_comment`. -/
def skip_comment (c : Char) (s : Reader) : Reader :=
  skipAux c (meas s) s

/-- `tsv::detail::parser::parse_fields`: consume one line and split it
into raw textual tokens, or report end-of-file. -/
def parse_fields (del : Char) (s : Reader) : Option (List (List Char)) × Reader :=
  match consume s with
  | (none, s') => (none, s')
  | (some l, s') => (some (split_fields del l), s')

/-- `tsv::detail::parser::parse_record`: consume one line and parse it as a
record; `.ok none` on clean end-of-file. Any error raised while building
the record is caught, stamped with the line's text and the reader's current
line number, and rethrown. -/
def parse_record_p (del : Char) (tys : List FieldTy) (s : Reader) :
    Except TsvError (Option (List Value) × Reader) :=
  match consume s with
  | (none, s') => .ok (none, s')
  | (some l, s') =>
    match parse_record_detail del tys l with
    | .ok vs => .ok (some vs, s')
    | .error e => .error { e with line := l, line_number := s'.lineNum }

/-- `tsv::options`: the delimiter, whether to consume a header line, and
the comment character (`0` disables comment skipping of nonempty lines). -/
structure Options where
  delimiter : Char
  header : Bool
  comment : Char
deriving DecidableEq, Repr

/-- One iteration bound of the `load` record loop: skip comment and blank
lines, parse one record, run the validation hook, and append. Fuel bounds
the iterations (each one consumes at least one line). -/
def loadAux (del : Char) (tys : List FieldTy) (val : List Value → Except TsvError Unit)
    (c : Char) : Nat → Reader → Except TsvError (List (List Value))
  | 0, _ => .ok []
  | fuel + 1, s =>
    let s1 := skip_comment c s
    match parse_record_p del tys s1 with
    | .error e => .error e
    | .ok (none, _) => .ok []
    | .ok (some vs, s2) =>
      match val vs with
      | .error e => .error e
      | .ok _ => (loadAux del tys val c fuel s2).map (vs :: ·)

/-- `tsv::load`: skip comment and blank lines; if the header option is set,
consume one line as raw fields and discard it, or throw the
`missing header` format error if none is available; then loop parsing,
validating and accumulating records until clean end-of-file. The record
type is given by its reflected field type list `tys`, and `val` is the
record's optional `validate()` hook (returning `.ok ()` for record types
without one). -/
def load (o : Options) (tys : List FieldTy) (val : List Value → Except TsvError Unit)
    (lines : List (List Char)) : Except TsvError (List (List Value)) :=
  let s0 := mkReader lines
  let s1 := skip_comment o.comment s0
  if o.header then
    match parse_fields o.delimiter s1 with
    | (none, _) => .error (mkErr .format_missing_header)
    | (some _, s2) => loadAux o.delimiter tys val o.comment (meas s2 + 1) s2
  else
    loadAux o.delimiter tys val o.comment (meas s1 + 1) s1

/-- Reference list-level semantics of the `load` loop, used to state and
prove its properties: walk the lines with a counter of lines already read;
skip a line that is empty or starts with the comment character; otherwise
parse it (stamping an error with the line and its 1-based number), validate
it, and prepend the record. -/
def run_records (del : Char) (tys : List FieldTy) (val : List Value → Except TsvError Unit)
    (c : Char) : Nat → List (List Char) → Except TsvError (List (List Value))
  | _, [] => .ok []
  | k, l :: rest =>
    if sk c l then run_records del tys val c (k + 1) rest
    else
      match parse_record_detail del tys l with
      | .error e0 => .error { e0 with line := l, line_number := k + 1 }
      | .ok r =>
        match val r with
        | .error e => .error e
        | .ok _ => (run_records del tys val c (k + 1) rest).map (r :: ·)

/-- The probing recursion of `tsv::detail::record_size`: an aggregate with
`n` flat fields is brace-initializable from `k` copies of the
convertible-to-anything probe `tsv::detail::any` exactly when `k ≤ n`
(missing initializers value-initialize the remaining flat fields). The
specialization for `k + 1` probes applies while initialization succeeds and
adds one; the primary template stops with `0`. `n` is the declared field
count of the record type, `k` the number of `Inits...` already stacked. -/
def record_size (n k : Nat) : Nat :=
  if h : k + 1 ≤ n then record_size n (k + 1) + 1 else 0
termination_by n - k
decreasing_by omega

/-- `tsv::detail::record_size_v`: the probing starts with zero stacked
initializers. -/
def record_size_v (n : Nat) : Nat :=
  record_size n 0

/-- `tsv::detail::splat(record, size<N>)`: an overload exists for each
`N` from 0 to 32; it destructures the record into `N` positional bindings
(well-formed exactly when `N` equals the record's field count) and returns
the list of the field types in declaration order. A record type is modelled
by its declared field type list; `none` stands for a compile-time failure
(no overload, or a binding count mismatch). -/
def splat (fields : List α) (n : Nat) : Option (List α) :=
  if n ≤ 32 then
    if fields.length = n then some fields else none
  else none

/-- `tsv::detail::field_type_list`: `splat` applied at the discovered field
count. -/
def field_type_list (fields : List α) : Option (List α) :=
  splat fields (record_size_v fields.length)

/-- A full decimal numeral: an optional minus sign (accepted only for a
signed type) followed by a nonempty run of digits covering the whole text,
and its value. Used to state properties of the numeric conversion. -/
def numeral (signed : Bool) (text : List Char) : Option Int :=
  match text with
  | [] => none
  | c :: cs =>
    if c = '-' then
      if signed && !cs.isEmpty && cs.all Char.isDigit then some (-(natOfDigits cs : Int))
      else none
    else if (c :: cs).all Char.isDigit then some ((natOfDigits (c :: cs) : Nat) : Int)
    else none

/-- The text of a line holding the given field tokens joined by the
delimiter. -/
def joinD (del : Char) : List (List Char) → List Char
  | [] => []
  | [t] => t
  | t :: ts => t ++ del :: joinD del ts

theorem pending_mkReader (ls : List (List Char)) : pending (mkReader ls) = ls := rfl

theorem consumed_mkReader (ls : List (List Char)) : consumed (mkReader ls) = 0 := rfl

theorem meas_pending (s : Reader) : meas s = (pending s).length := rfl

theorem consume_nil {s : Reader} (h : pending s = []) : consume s = (none, s) := by
  obtain ⟨inp, bl, n, av⟩ := s
  cases av with
  | true => simp [pending] at h
  | false =>
    simp [pending] at h
    subst h
    rfl

theorem consume_cons {s : Reader} {l : List Char} {t : List (List Char)}
    (h : pending s = l :: t) (hwf : s.avail = true → 1 ≤ s.lineNum) :
    consume s = (some l, ⟨t, l, consumed s + 1, false⟩) := by
  obtain ⟨inp, bl, n, av⟩ := s
  cases av with
  | true =>
    simp [pending] at h
    obtain ⟨h1, h2⟩ := h
    subst h1
    subst h2
    have hn : 1 ≤ n := hwf rfl
    simp [consume, ensure, consumed]
    omega
  | false =>
    simp [pending] at h
    subst h
    simp [consume, ensure, consumed]

theorem pending_explicit (t : List (List Char)) (l : List Char) (m : Nat) :
    pending ⟨t, l, m, false⟩ = t := rfl

theorem consumed_explicit (t : List (List Char)) (l : List Char) (m : Nat) :
    consumed ⟨t, l, m, false⟩ = m := rfl

theorem skipAux_spec (c : Char) :
    ∀ fuel s, meas s ≤ fuel → (s.avail = true → 1 ≤ s.lineNum) →
      pending (skipAux c fuel s) = (pending s).dropWhile (sk c) ∧
      consumed (skipAux c fuel s) = consumed s + ((pending s).takeWhile (sk c)).length ∧
      ((skipAux c fuel s).avail = true → 1 ≤ (skipAux c fuel s).lineNum) := by
  intro fuel
  induction fuel with
  | zero =>
    intro s hm hwf
    have hp : pending s = [] := List.length_eq_zero.mp (Nat.le_zero.mp hm)
    refine ⟨by simp [skipAux, hp], by simp [skipAux, hp], by simpa [skipAux] using hwf⟩
  | succ fuel ih =>
    intro s hm hwf
    obtain ⟨inp, bl, n, av⟩ := s
    cases av with
    | true =>
      have hpeek : peek ⟨inp, bl, n, true⟩ = (some bl, ⟨inp, bl, n, true⟩) := rfl
      have hn : 1 ≤ n := hwf rfl
      cases hsk : sk c bl with
      | true =>
        have hcons : consume (⟨inp, bl, n, true⟩ : Reader) = (some bl, ⟨inp, bl, n, false⟩) := rfl
        have hstep : skipAux c (fuel + 1) ⟨inp, bl, n, true⟩ = skipAux c fuel ⟨inp, bl, n, false⟩ := by
          simp [skipAux, hpeek, hsk, hcons]
        have hm' : meas (⟨inp, bl, n, false⟩ : Reader) ≤ fuel := by
          simp [meas, pending] at hm ⊢
          omega
        have h3 := ih ⟨inp, bl, n, false⟩ hm' (by simp)
        rw [hstep]
        refine ⟨?_, ?_, h3.2.2⟩
        · rw [h3.1]
          simp [pending, List.dropWhile, hsk]
        · rw [h3.2.1]
          simp [pending, consumed, List.takeWhile, hsk]
          omega
      | false =>
        have hstep : skipAux c (fuel + 1) ⟨inp, bl, n, true⟩ = ⟨inp, bl, n, true⟩ := by
          simp [skipAux, hpeek, hsk]
        rw [hstep]
        refine ⟨?_, ?_, hwf⟩
        · simp [pending, List.dropWhile, hsk]
        · simp [pending, List.takeWhile, hsk]
    | false =>
      cases inp with
      | nil =>
        have hstep : skipAux c (fuel + 1) ⟨[], bl, n, false⟩ = ⟨[], bl, n, false⟩ := rfl
        rw [hstep]
        simp [pending, hwf]
      | cons l rest =>
        have hpeek : peek ⟨l :: rest, bl, n, false⟩ = (some l, ⟨rest, l, n + 1, true⟩) := rfl
        cases hsk : sk c l with
        | true =>
          have hcons : consume (⟨rest, l, n + 1, true⟩ : Reader) = (some l, ⟨rest, l, n + 1, false⟩) := rfl
          have hstep : skipAux c (fuel + 1) ⟨l :: rest, bl, n, false⟩ =
              skipAux c fuel ⟨rest, l, n + 1, false⟩ := by
            simp [skipAux, hpeek, hsk, hcons]
          have hm' : meas (⟨rest, l, n + 1, false⟩ : Reader) ≤ fuel := by
            simp [meas, pending] at hm ⊢
            omega
          have h3 := ih ⟨rest, l, n + 1, false⟩ hm' (by simp)
          rw [hstep]
          refine ⟨?_, ?_, h3.2.2⟩
          · rw [h3.1]
            simp [pending, List.dropWhile, hsk]
          · rw [h3.2.1]
            simp [pending, consumed, List.takeWhile, hsk]
            omega
        | false =>
          have hstep : skipAux c (fuel + 1) ⟨l :: rest, bl, n, false⟩ = ⟨rest, l, n + 1, true⟩ := by
            simp [skipAux, hpeek, hsk]
          rw [hstep]
          refine ⟨?_, ?_, by simp⟩
          · simp [pending, List.dropWhile, hsk]
          · simp [pending, consumed, List.takeWhile, hsk]

theorem skip_spec (c : Char) (s : Reader) (hwf : s.avail = true → 1 ≤ s.lineNum) :
    pending (skip_comment c s) = (pending s).dropWhile (sk c) ∧
    consumed (skip_comment c s) = consumed s + ((pending s).takeWhile (sk c)).length ∧
    ((skip_comment c s).avail = true → 1 ≤ (skip_comment c s).lineNum) :=
  skipAux_spec c (meas s) s le_rfl hwf

theorem dropWhile_eq_cons_head {α : Type} {p : α → Bool} :
    ∀ {ls : List α} {l : α} {t : List α}, ls.dropWhile p = l :: t → p l = false := by
  intro ls
  induction ls with
  | nil => intro l t h; simp [List.dropWhile] at h
  | cons x xs ih =>
    intro l t h
    cases hx : p x with
    | true =>
      rw [List.dropWhile_cons_of_pos hx] at h
      exact ih h
    | false =>
      rw [List.dropWhile_cons_of_neg (by simp [hx])] at h
      cases h
      exact hx

theorem dropWhile_length_le {α : Type} (p : α → Bool) :
    ∀ ls : List α, (ls.dropWhile p).length ≤ ls.length := by
  intro ls
  induction ls with
  | nil => simp
  | cons x xs ih =>
    cases hx : p x with
    | true =>
      rw [List.dropWhile_cons_of_pos hx]
      exact Nat.le_trans ih (by simp)
    | false =>
      rw [List.dropWhile_cons_of_neg (by simp [hx])]

theorem run_records_dropWhile (del : Char) (tys : List FieldTy)
    (val : List Value → Except TsvError Unit) (c : Char) :
    ∀ ls k, run_records del tys val c k ls =
      run_records del tys val c (k + (ls.takeWhile (sk c)).length) (ls.dropWhile (sk c)) := by
  intro ls
  induction ls with
  | nil => intro k; simp
  | cons l t ih =>
    intro k
    cases hsk : sk c l with
    | true =>
      rw [List.takeWhile_cons_of_pos hsk, List.dropWhile_cons_of_pos hsk]
      have h1 : run_records del tys val c k (l :: t) = run_records del tys val c (k + 1) t := by
        simp [run_records, hsk]
      rw [h1, ih (k + 1)]
      have : k + 1 + (t.takeWhile (sk c)).length = k + (l :: t.takeWhile (sk c)).length := by
        simp
        omega
      rw [this]
    | false =>
      rw [List.takeWhile_cons_of_neg (by simp [hsk]), List.dropWhile_cons_of_neg (by simp [hsk])]
      simp

theorem loadAux_spec (del : Char) (tys : List FieldTy)
    (val : List Value → Except TsvError Unit) (c : Char) :
    ∀ fuel s, meas s ≤ fuel → (s.avail = true → 1 ≤ s.lineNum) →
      loadAux del tys val c fuel s = run_records del tys val c (consumed s) (pending s) := by
  intro fuel
  induction fuel with
  | zero =>
    intro s hm _
    have hp : pending s = [] := List.length_eq_zero.mp (Nat.le_zero.mp hm)
    simp [loadAux, hp, run_records]
  | succ fuel ih =>
    intro s hm hwf
    obtain ⟨hpend, hcnt, hwf1⟩ := skip_spec c s hwf
    rw [run_records_dropWhile del tys val c (pending s) (consumed s), ← hcnt, ← hpend]
    cases hp1 : pending (skip_comment c s) with
    | nil =>
      have hc := consume_nil hp1
      simp [loadAux, parse_record_p, hc, run_records]
    | cons l t =>
      have hsknot : sk c l = false := by
        rw [hpend] at hp1
        exact dropWhile_eq_cons_head hp1
      have hc := consume_cons hp1 hwf1
      have hrr : run_records del tys val c (consumed (skip_comment c s)) (l :: t) =
          match parse_record_detail del tys l with
          | .error e0 => .error { e0 with line := l, line_number := consumed (skip_comment c s) + 1 }
          | .ok r =>
            match val r with
            | .error e => .error e
            | .ok _ => (run_records del tys val c (consumed (skip_comment c s) + 1) t).map (r :: ·) := by
        simp [run_records, hsknot]
      rw [hrr]
      have hmeas2 : meas (⟨t, l, consumed (skip_comment c s) + 1, false⟩ : Reader) ≤ fuel := by
        have h1 : meas (skip_comment c s) = t.length + 1 := by
          rw [meas_pending, hp1]
          simp
        have h2 : meas (skip_comment c s) ≤ meas s := by
          rw [meas_pending, meas_pending, hpend]
          exact dropWhile_length_le (sk c) (pending s)
        have h3 : meas (⟨t, l, consumed (skip_comment c s) + 1, false⟩ : Reader) = t.length := by
          simp [meas, pending]
        omega
      cases hpd : parse_record_detail del tys l with
      | error e0 =>
        simp [loadAux, parse_record_p, hc, hpd]
      | ok r =>
        cases hval : val r with
        | error e =>
          simp [loadAux, parse_record_p, hc, hpd, hval]
        | ok u =>
          have hrec := ih ⟨t, l, consumed (skip_comment c s) + 1, false⟩ hmeas2 (by simp)
          rw [pending_explicit, consumed_explicit] at hrec
          simp [loadAux, parse_record_p, hc, hpd, hval, hrec]

theorem load_noheader_eq (del c : Char) (tys : List FieldTy)
    (val : List Value → Except TsvError Unit) (lines : List (List Char)) :
    load ⟨del, false, c⟩ tys val lines = run_records del tys val c 0 lines := by
  obtain ⟨hpend, hcnt, hwf1⟩ := skip_spec c (mkReader lines) (by simp [mkReader])
  have hload : load ⟨del, false, c⟩ tys val lines =
      loadAux del tys val c (meas (skip_comment c (mkReader lines)) + 1)
        (skip_comment c (mkReader lines)) := by
    simp [load]
  rw [hload, loadAux_spec del tys val c _ _ (Nat.le_succ _) hwf1, hpend, hcnt,
    pending_mkReader, consumed_mkReader, ← run_records_dropWhile]

theorem load_header_eq (del c : Char) (tys : List FieldTy)
    (val : List Value → Except TsvError Unit) (lines : List (List Char)) :
    load ⟨del, true, c⟩ tys val lines =
      match lines.dropWhile (sk c) with
      | [] => .error (mkErr .format_missing_header)
      | _ :: rest => run_records del tys val c ((lines.takeWhile (sk c)).length + 1) rest := by
  obtain ⟨hpend, hcnt, hwf1⟩ := skip_spec c (mkReader lines) (by simp [mkReader])
  rw [pending_mkReader] at hpend
  rw [consumed_mkReader] at hcnt
  cases hp1 : pending (skip_comment c (mkReader lines)) with
  | nil =>
    have hc := consume_nil hp1
    have hdw : lines.dropWhile (sk c) = [] := by rw [← hpend, hp1]
    simp [load, parse_fields, hc, hdw]
  | cons h t =>
    have hc := consume_cons hp1 hwf1
    have hdw : lines.dropWhile (sk c) = h :: t := by rw [← hpend, hp1]
    have hload : load ⟨del, true, c⟩ tys val lines =
        loadAux del tys val c
          (meas (⟨t, h, consumed (skip_comment c (mkReader lines)) + 1, false⟩ : Reader) + 1)
          ⟨t, h, consumed (skip_comment c (mkReader lines)) + 1, false⟩ := by
      simp [load, parse_fields, hc]
    rw [hload, loadAux_spec del tys val c _ _ (Nat.le_succ _) (by simp),
      pending_explicit, consumed_explicit, hcnt, hdw]
    simp [pending_mkReader]

theorem filter_eq_filter_dropWhile (c : Char) :
    ∀ ls : List (List Char),
      ls.filter (fun l => !(sk c l)) = (ls.dropWhile (sk c)).filter (fun l => !(sk c l)) := by
  intro ls
  induction ls with
  | nil => simp
  | cons l t ih =>
    cases hsk : sk c l with
    | true =>
      rw [List.dropWhile_cons_of_pos hsk, List.filter_cons_of_neg (by simp [hsk])]
      exact ih
    | false =>
      rw [List.dropWhile_cons_of_neg (by simp [hsk])]

theorem filter_of_dropWhile_cons {c : Char} {ls rest : List (List Char)} {h : List Char}
    (hdw : ls.dropWhile (sk c) = h :: rest) :
    ls.filter (fun l => !(sk c l)) = h :: rest.filter (fun l => !(sk c l)) := by
  have hh : sk c h = false := dropWhile_eq_cons_head hdw
  rw [filter_eq_filter_dropWhile, hdw, List.filter_cons_of_pos (by simp [hh])]

theorem run_records_ok (del : Char) (tys : List FieldTy)
    (val : List Value → Except TsvError Unit) (c : Char) :
    ∀ ls k recs, run_records del tys val c k ls = .ok recs →
      List.Forall₂ (fun l r => parse_record_detail del tys l = .ok r ∧ val r = .ok ())
        (ls.filter (fun l => !(sk c l))) recs := by
  intro ls
  induction ls with
  | nil =>
    intro k recs h
    simp [run_records] at h
    subst h
    exact .nil
  | cons l t ih =>
    intro k recs h
    cases hsk : sk c l with
    | true =>
      rw [List.filter_cons_of_neg (by simp [hsk])]
      have h1 : run_records del tys val c (k + 1) t = .ok recs := by
        simpa [run_records, hsk] using h
      exact ih _ _ h1
    | false =>
      rw [List.filter_cons_of_pos (by simp [hsk])]
      cases hpd : parse_record_detail del tys l with
      | error e0 => simp [run_records, hsk, hpd] at h
      | ok r =>
        cases hval : val r with
        | error e => simp [run_records, hsk, hpd, hval] at h
        | ok u =>
          cases hrun : run_records del tys val c (k + 1) t with
          | error e => simp [run_records, hsk, hpd, hval, hrun, Except.map] at h
          | ok recs' =>
            have hr : r :: recs' = recs := by
              simpa [run_records, hsk, hpd, hval, hrun, Except.map] using h
            subst hr
            exact .cons ⟨hpd, by cases u; exact hval⟩ (ih _ _ hrun)

theorem run_records_val_error (del : Char) (tys : List FieldTy)
    (val : List Value → Except TsvError Unit) (c : Char) :
    ∀ ls k ds₁ (l : List Char) ds₂ r e,
      ls.filter (fun x => !(sk c x)) = ds₁ ++ l :: ds₂ →
      (∀ d ∈ ds₁, ∃ rv, parse_record_detail del tys d = .ok rv ∧ val rv = .ok ()) →
      parse_record_detail del tys l = .ok r → val r = .error e →
      run_records del tys val c k ls = .error e := by
  intro ls
  induction ls with
  | nil =>
    intro k ds₁ l ds₂ r e hf _ _ _
    simp at hf
  | cons x t ih =>
    intro k ds₁ l ds₂ r e hf hgood hp hv
    cases hsk : sk c x with
    | true =>
      rw [List.filter_cons_of_neg (by simp [hsk])] at hf
      have := ih (k + 1) ds₁ l ds₂ r e hf hgood hp hv
      simpa [run_records, hsk]
    | false =>
      rw [List.filter_cons_of_pos (by simp [hsk])] at hf
      cases ds₁ with
      | nil =>
        simp at hf
        obtain ⟨hx, _⟩ := hf
        subst hx
        simp [run_records, hsk, hp, hv]
      | cons d ds =>
        simp at hf
        obtain ⟨hx, hf'⟩ := hf
        subst hx
        obtain ⟨rv, hrv, hrvok⟩ := hgood x (by simp)
        have hrec := ih (k + 1) ds l ds₂ r e hf' (fun d hd => hgood d (by simp [hd])) hp hv
        simp [run_records, hsk, hrv, hrvok, hrec, Except.map]

theorem record_size_eq (n : Nat) : ∀ d k, n - k ≤ d → record_size n k = n - k := by
  intro d
  induction d with
  | zero =>
    intro k h
    rw [record_size]
    have hk : ¬ (k + 1 ≤ n) := by omega
    simp [hk]
    omega
  | succ d ih =>
    intro k h
    rw [record_size]
    by_cases hk : k + 1 ≤ n
    · rw [dif_pos hk, ih (k + 1) (by omega)]
      omega
    · rw [dif_neg hk]
      omega

/-- C1: for every aggregate record type with 0 to 32 flat fields (modelled
by its declared field type list), the field-count discovery `record_size_v`
returns exactly the declared number of fields, and `field_type_list`
returns exactly the declared field types in declaration order. -/
theorem c1_reflection {α : Type} (fields : List α) (h : fields.length ≤ 32) :
    record_size_v fields.length = fields.length ∧ field_type_list fields = some fields := by
  have h1 : record_size_v fields.length = fields.length := by
    rw [record_size_v, record_size_eq fields.length fields.length 0 (by omega)]
    omega
  refine ⟨h1, ?_⟩
  rw [field_type_list, h1, splat, if_pos h, if_pos rfl]

/-- Witness for C1 at a concrete three-field record type. -/
theorem c1_reflection_witness :
    record_size_v 3 = 3 ∧
    field_type_list [FieldTy.str, FieldTy.chr, FieldTy.str] =
      some [FieldTy.str, FieldTy.chr, FieldTy.str] :=
  c1_reflection [FieldTy.str, FieldTy.chr, FieldTy.str] (by decide)

/-- C3 (evaluation of the code at the claim's inputs): splitting
`"a\tb\tc"` on tab yields `["a","b","c"]`; splitting the empty line with
zero expected fields yields no tokens and no error; extracting a field from
empty text fails with the `missing field` format error — but splitting
`"\t\t"` yields only TWO empty tokens, not the three the claim (and the
repository's own test) expects: the loop `while (!remain.empty())` stops
after the trailing delimiter is consumed, losing the final empty token. -/
theorem c3_split_eval (ty : FieldTy) (tys : List FieldTy) :
    split_fields '\t' ("a\tb\tc".toList) = ["a".toList, "b".toList, "c".toList] ∧
    split_fields '\t' ("\t\t".toList) = [[], []] ∧
    split_fields '\t' ("\t\t".toList) ≠ [[], [], []] ∧
    parse_record_detail '\t' [] [] = .ok [] ∧
    split_consume [] '\t' = .error (mkErr .format_missing_field) ∧
    parse_tokens '\t' (ty :: tys) [] = .error (mkErr .format_missing_field) := by
  exact ⟨by decide, by decide, by decide, rfl, rfl, rfl⟩

/-- C8: with the header option enabled, `load` first skips comment/blank
lines; if no line remains it fails with the `missing header` format error;
otherwise the outcome depends only on the lines after the header line —
the header line's content never appears on the right-hand side (it is
consumed as raw fields only, never type-parsed, and discarded). -/
theorem c8_header (del c : Char) (tys : List FieldTy)
    (val : List Value → Except TsvError Unit) (lines : List (List Char)) :
    load ⟨del, true, c⟩ tys val lines =
      match lines.dropWhile (sk c) with
      | [] => .error (mkErr .format_missing_header)
      | _ :: rest => run_records del tys val c ((lines.takeWhile (sk c)).length + 1) rest :=
  load_header_eq del c tys val lines

theorem string_append_data (a b : String) : a ++ b = ⟨a.data ++ b.data⟩ := rfl

theorem string_data_mk (d : List Char) : (String.mk d).data = d := rfl

/-- C10: `describe` renders the message, then `" (at line N)"` exactly when
the stored line number is nonzero, then the quoted offending line exactly
when the stored line text is non-empty; in particular an error whose line
is empty renders with no quoted line. -/
theorem c10_describe (e : TsvError) :
    describe e = e.msg
      ++ (if e.line_number = 0 then "" else " (at line " ++ toString e.line_number ++ ")")
      ++ (if e.line.isEmpty then "" else ": \"" ++ String.mk e.line ++ "\"") := by
  obtain ⟨k, m, l, n⟩ := e
  by_cases hn : n = 0 <;> by_cases hl : l.isEmpty <;>
    simp [describe, hn, hl, string_append_data, string_data_mk, List.append_assoc]

theorem splitOnce_append {del : Char} :
    ∀ {t : List Char} (r : List Char), del ∉ t → splitOnce del (t ++ del :: r) = (t, r) := by
  intro t
  induction t with
  | nil =>
    intro r _
    simp [splitOnce]
  | cons c cs ih =>
    intro r h
    have hc : ¬ (c = del) := fun hcd => h (by simp [hcd])
    have hcs : del ∉ cs := fun hm => h (by simp [hm])
    simp [splitOnce, hc, ih r hcs]

theorem split_consume_of_ne_nil {text : List Char} (del : Char) (h : text ≠ []) :
    split_consume text del = .ok (splitOnce del text) := by
  cases text with
  | nil => exact absurd rfl h
  | cons c cs => rfl

theorem parse_tokens_cons {del : Char} {ty : FieldTy} {tys : List FieldTy}
    {text tok rest : List Char} {v : Value} {vs : List Value} {rem : List Char}
    (h1 : split_consume text del = .ok (tok, rest)) (h2 : conv ty tok = .ok v)
    (h3 : parse_tokens del tys rest = .ok (vs, rem)) :
    parse_tokens del (ty :: tys) text = .ok (v :: vs, rem) := by
  simp [parse_tokens, h1, h2, h3]

theorem parse_tokens_joinD (del : Char) :
    ∀ (toks : List (List Char)) (tys : List FieldTy) (ty : FieldTy) (tok : List Char),
      List.Forall₂ (fun ty' tk => del ∉ tk ∧ ∃ v, conv ty' tk = .ok v) (ty :: tys) (tok :: toks) →
      ∃ vs, parse_tokens del (ty :: tys) (joinD del (tok :: toks) ++ [del]) = .ok (vs, []) := by
  intro toks
  induction toks with
  | nil =>
    intro tys ty tok h
    cases h with
    | cons h1 h2 =>
      cases h2
      obtain ⟨hnm, v, hv⟩ := h1
      refine ⟨[v], ?_⟩
      have hsc : split_consume (joinD del [tok] ++ [del]) del = .ok (tok, []) := by
        rw [split_consume_of_ne_nil del (by simp [joinD]), joinD]
        rw [show tok ++ [del] = tok ++ del :: [] from rfl, splitOnce_append [] hnm]
      simp [parse_tokens, hsc, hv]
  | cons tok2 toks' ih =>
    intro tys ty tok h
    cases h with
    | cons h1 h2 =>
      cases tys with
      | nil => cases h2
      | cons ty2 tys' =>
        obtain ⟨hnm, v, hv⟩ := h1
        obtain ⟨vs, hvs⟩ := ih tys' ty2 tok2 h2
        refine ⟨v :: vs, ?_⟩
        have htext : joinD del (tok :: tok2 :: toks') ++ [del] =
            tok ++ del :: (joinD del (tok2 :: toks') ++ [del]) := by
          simp [joinD]
        have hsc : split_consume (joinD del (tok :: tok2 :: toks') ++ [del]) del =
            .ok (tok, joinD del (tok2 :: toks') ++ [del]) := by
          rw [htext, split_consume_of_ne_nil del (by simp), splitOnce_append _ hnm]
        exact parse_tokens_cons hsc hv hvs

/-- C9: for every record type with at least one field and tokens that each
convert successfully and contain no delimiter, a line consisting of the
tokens joined by the delimiter and ending in one extra trailing delimiter
parses successfully into a record — the `excess fields` error is not
raised, because the trailing delimiter is consumed by the last field's
split and the remaining text is empty. -/
theorem c9_trailing_delimiter (del : Char) (ty : FieldTy) (tys : List FieldTy)
    (tok : List Char) (toks : List (List Char))
    (h : List.Forall₂ (fun ty' tk => del ∉ tk ∧ ∃ v, conv ty' tk = .ok v)
      (ty :: tys) (tok :: toks)) :
    ∃ vs, parse_record_detail del (ty :: tys) (joinD del (tok :: toks) ++ [del]) = .ok vs := by
  obtain ⟨vs, hvs⟩ := parse_tokens_joinD del toks tys ty tok h
  exact ⟨vs, by simp [parse_record_detail, hvs]⟩

/-- Witness for C9: the two-field line `"123\t456\t"` (trailing tab)
parses successfully for a record of two `unsigned` fields. -/
theorem c9_trailing_delimiter_witness :
    ∃ vs, parse_record_detail '\t'
      [FieldTy.num ⟨0, 4294967295⟩, FieldTy.num ⟨0, 4294967295⟩]
      (joinD '\t' ["123".toList, "456".toList] ++ ['\t']) = .ok vs :=
  c9_trailing_delimiter '\t' _ _ _ _
    (.cons ⟨by decide, ⟨.num 123, by decide⟩⟩
      (.cons ⟨by decide, ⟨.num 456, by decide⟩⟩ .nil))

/-- C2: whenever `load` succeeds, the returned sequence corresponds
one-to-one, in input order, to the non-skipped (non-comment, non-blank),
non-header data lines of the input: each such line parses to the returned
record and passes validation, and the result length equals the number of
such lines. -/
theorem c2_load_ok (o : Options) (tys : List FieldTy)
    (val : List Value → Except TsvError Unit) (lines : List (List Char))
    (recs : List (List Value)) (h : load o tys val lines = .ok recs) :
    List.Forall₂ (fun l r => parse_record_detail o.delimiter tys l = .ok r ∧ val r = .ok ())
      ((lines.filter (fun l => !(sk o.comment l))).drop (if o.header then 1 else 0)) recs ∧
    recs.length =
      ((lines.filter (fun l => !(sk o.comment l))).drop (if o.header then 1 else 0)).length := by
  obtain ⟨del, hd, c⟩ := o
  cases hd with
  | false =>
    rw [load_noheader_eq] at h
    have hf := run_records_ok del tys val c lines 0 recs h
    simp only [List.drop_zero, if_neg (by simp : ¬ False)]
    exact ⟨hf, hf.length_eq.symm⟩
  | true =>
    rw [load_header_eq] at h
    cases hdw : lines.dropWhile (sk c) with
    | nil =>
      rw [hdw] at h
      simp at h
    | cons hh rest =>
      rw [hdw] at h
      have hf := run_records_ok del tys val c rest _ recs h
      have hfil := filter_of_dropWhile_cons hdw
      simp only [if_pos trivial]
      rw [hfil, List.drop_one, List.tail_cons]
      exact ⟨hf, hf.length_eq.symm⟩

/-- Witness for C2: a header-enabled load of a comment line, a header line
and one data line returns exactly the one parsed record. -/
theorem c2_load_ok_witness :
    List.Forall₂
      (fun l r => parse_record_detail (Options.mk '\t' true '#').delimiter
          [FieldTy.num ⟨0, 4294967295⟩, FieldTy.num ⟨0, 4294967295⟩] l = .ok r ∧
        (fun _ => (Except.ok () : Except TsvError Unit)) r = .ok ())
      ((["# c".toList, "a\tb".toList, "1\t2".toList].filter
          (fun l => !(sk (Options.mk '\t' true '#').comment l))).drop
        (if (Options.mk '\t' true '#').header then 1 else 0))
      [[Value.num 1, Value.num 2]] ∧
    ([[Value.num 1, Value.num 2]] : List (List Value)).length =
      ((["# c".toList, "a\tb".toList, "1\t2".toList].filter
          (fun l => !(sk (Options.mk '\t' true '#').comment l))).drop
        (if (Options.mk '\t' true '#').header then 1 else 0)).length :=
  c2_load_ok (Options.mk '\t' true '#')
    [FieldTy.num ⟨0, 4294967295⟩, FieldTy.num ⟨0, 4294967295⟩]
    (fun _ => Except.ok ())
    ["# c".toList, "a\tb".toList, "1\t2".toList]
    [[Value.num 1, Value.num 2]]
    (by decide)

/-- C5 counterexample: a one-field record whose validation hook rejects the
parsed record. The line `"x"` parses successfully, validation fails, and
`load` propagates the validation error with an EMPTY line text and line
number 0 — not the offending line's text `"x"` and line number 1 that the
claim asserts. The hook's error leaves `load` without passing the
catch-and-stamp point in `parser::parse_record`, so no line context is
attached. -/
theorem c5_counterexample :
    load ⟨'\t', false, Char.ofNat 0⟩ [FieldTy.str]
        (fun _ => .error (mkValErr "bad")) ["x".toList] =
      .error ⟨.validation "bad", "bad", [], 0⟩ ∧
    (⟨.validation "bad", "bad", [], 0⟩ : TsvError).line_number = 0 ∧
    (⟨.validation "bad", "bad", [], 0⟩ : TsvError).line_number ≠ 1 ∧
    (⟨.validation "bad", "bad", [], 0⟩ : TsvError).line ≠ "x".toList := by
  exact ⟨by decide, rfl, by decide, by decide⟩

/-- C5 amended: when the data lines start with zero or more lines that
parse and validate successfully and then reach a line whose record parses
successfully but fails validation with error `e`, `load` fails with exactly
`e` as the hook raised it — the validation error is NOT annotated with the
offending line's text or line number (for a hook using `tsv::check`, the
propagated error has empty line text and line number 0). -/
theorem c5_amended (o : Options) (tys : List FieldTy)
    (val : List Value → Except TsvError Unit) (lines ds₁ : List (List Char))
    (l : List Char) (ds₂ : List (List Char)) (r : List Value) (e : TsvError)
    (hd : (lines.filter (fun x => !(sk o.comment x))).drop (if o.header then 1 else 0) =
      ds₁ ++ l :: ds₂)
    (hgood : ∀ d ∈ ds₁, ∃ rv, parse_record_detail o.delimiter tys d = .ok rv ∧ val rv = .ok ())
    (hp : parse_record_detail o.delimiter tys l = .ok r) (hv : val r = .error e) :
    load o tys val lines = .error e := by
  obtain ⟨del, hdr, c⟩ := o
  cases hdr with
  | false =>
    rw [load_noheader_eq]
    refine run_records_val_error del tys val c lines 0 ds₁ l ds₂ r e ?_ hgood hp hv
    simpa using hd
  | true =>
    rw [load_header_eq]
    cases hdw : lines.dropWhile (sk c) with
    | nil =>
      have hnil : lines.filter (fun x => !(sk c x)) = [] := by
        rw [filter_eq_filter_dropWhile c lines, hdw]
        rfl
      rw [hnil] at hd
      simp at hd
    | cons hh rest =>
      have hfil := filter_of_dropWhile_cons hdw
      rw [hfil] at hd
      simp only [if_pos trivial, List.drop_one, List.tail_cons] at hd
      exact run_records_val_error del tys val c rest _ ds₁ l ds₂ r e hd hgood hp hv

/-- Witness for C5 amended: the single line `"y"` parses as a one-string
record, the hook rejects it, and `load` returns the hook's error
unchanged. -/
theorem c5_amended_witness :
    load ⟨'\t', false, Char.ofNat 0⟩ [FieldTy.str]
        (fun _ => .error (mkValErr "v")) ["y".toList] = .error (mkValErr "v") :=
  c5_amended ⟨'\t', false, Char.ofNat 0⟩ [FieldTy.str]
    (fun _ => .error (mkValErr "v")) ["y".toList] [] ("y".toList) []
    [Value.str ("y".toList)] (mkValErr "v")
    (by decide) (by simp) (by decide) rfl

/-- C4: for a reader that has read `s.lineNum` of the original `N` stream
lines (invariant `s.lineNum + s.input.length = N`), `parser::parse_record`
returns "no line" exactly on clean end-of-input (never on a parse failure),
and when it raises, the propagated error is the error raised while building
the record from the consumed line, annotated with that line's full text and
the reader's current line number — which is nonzero and equals the 1-based
position `N - s'.input.length` of that line in the input. -/
theorem c4_parse_record (del : Char) (tys : List FieldTy) (s : Reader) (N : Nat)
    (hwf : s.avail = true → 1 ≤ s.lineNum)
    (hN : s.lineNum + s.input.length = N) :
    (parse_record_p del tys s = .ok (none, s) ↔ pending s = []) ∧
    ((∃ e, parse_record_p del tys s = .error e) →
      ∃ l s' e0, consume s = (some l, s') ∧
        parse_record_detail del tys l = .error e0 ∧
        parse_record_p del tys s = .error { e0 with line := l, line_number := s'.lineNum } ∧
        1 ≤ s'.lineNum ∧ s'.lineNum + s'.input.length = N) := by
  cases hp : pending s with
  | nil =>
    have hc := consume_nil hp
    have heq : parse_record_p del tys s = .ok (none, s) := by simp [parse_record_p, hc]
    refine ⟨by simp [heq, hp], ?_⟩
    rintro ⟨e, he⟩
    rw [heq] at he
    cases he
  | cons l t =>
    have hc := consume_cons hp hwf
    have hlen : consumed s + 1 + t.length = N := by
      obtain ⟨inp, bl, n, av⟩ := s
      cases av with
      | true =>
        simp [pending] at hp
        obtain ⟨h1, h2⟩ := hp
        subst h1
        subst h2
        have h3 := hwf rfl
        simp [consumed]
        simp at hN h3
        omega
      | false =>
        simp [pending] at hp
        subst hp
        simp [consumed]
        simp at hN
        omega
    cases hpd : parse_record_detail del tys l with
    | ok vs =>
      have heq : parse_record_p del tys s = .ok (some vs, ⟨t, l, consumed s + 1, false⟩) := by
        simp [parse_record_p, hc, hpd]
      refine ⟨by rw [heq]; simp, ?_⟩
      rintro ⟨e, he⟩
      rw [heq] at he
      cases he
    | error e0 =>
      have heq : parse_record_p del tys s =
          .error { e0 with line := l, line_number := consumed s + 1 } := by
        simp [parse_record_p, hc, hpd]
      refine ⟨by rw [heq]; simp, ?_⟩
      intro _
      refine ⟨l, ⟨t, l, consumed s + 1, false⟩, e0, hc, hpd, heq, ?_, ?_⟩
      · show 1 ≤ consumed s + 1
        omega
      · show consumed s + 1 + t.length = N
        exact hlen

/-- Witness for C4: a reader holding the single unparsable line `"x"` for a
one-numeric-field record; the raised error carries the line text `"x"` and
line number 1. -/
theorem c4_parse_record_witness :
    ∃ l s' e0, consume (mkReader ["x".toList]) = (some l, s') ∧
      parse_record_detail '\t' [FieldTy.num ⟨0, 255⟩] l = .error e0 ∧
      parse_record_p '\t' [FieldTy.num ⟨0, 255⟩] (mkReader ["x".toList]) =
        .error { e0 with line := l, line_number := s'.lineNum } ∧
      1 ≤ s'.lineNum ∧ s'.lineNum + s'.input.length = 1 :=
  (c4_parse_record '\t' [FieldTy.num ⟨0, 255⟩] (mkReader ["x".toList]) 1
      (by simp [mkReader]) (by simp [mkReader])).2
    ⟨⟨.parse_unknown, "parse error", "x".toList, 1⟩, by decide⟩

/-- C7 counterexample: on a fresh reader over one line, a single `peek`
(no `consume` yet) already advances `line_number()` to 1 — the claim
asserts peek does not advance the line number and that it stays equal to
the count of lines yielded via `consume` (here 0). -/
theorem c7_counterexample :
    (peek (mkReader ["a".toList])).2.lineNum = 1 ∧
    (peek (mkReader ["a".toList])).2.lineNum ≠ 0 := by
  exact ⟨rfl, by decide⟩

/-- C7 amended: `line_number()` is 0 on a fresh reader and always equals
the number of lines read from the stream (`lineNum + remaining input
length` is invariant under `peek` and `consume`). `peek` is idempotent
(repeating it returns the same line and state), but the first peek of a
new line reads it and advances the line number by one; a peek with a line
already buffered, and the `consume` that follows any peek, do not advance
it further. The line number never decreases. -/
theorem c7_amended (ls : List (List Char)) (s t : Reader) (r : Option (List Char))
    (hpeek : peek s = (r, t)) (hwf : s.avail = true → 1 ≤ s.lineNum) :
    (mkReader ls).lineNum = 0 ∧
    peek t = (r, t) ∧
    (consume t).2.lineNum = t.lineNum ∧
    s.lineNum ≤ t.lineNum ∧
    t.lineNum + t.input.length = s.lineNum + s.input.length ∧
    (s.avail = false → s.input ≠ [] → t.lineNum = s.lineNum + 1) ∧
    (s.avail = true → t.lineNum = s.lineNum) ∧
    (consume s).2.lineNum + (consume s).2.input.length = s.lineNum + s.input.length := by
  obtain ⟨inp, bl, n, av⟩ := s
  cases av with
  | true =>
    have h : peek ⟨inp, bl, n, true⟩ = (some bl, ⟨inp, bl, n, true⟩) := rfl
    rw [h] at hpeek
    injection hpeek with h1 h2
    subst h1
    subst h2
    exact ⟨rfl, rfl, rfl, le_rfl, rfl, by simp, fun _ => rfl, rfl⟩
  | false =>
    cases inp with
    | nil =>
      have h : peek ⟨[], bl, n, false⟩ = (none, ⟨[], bl, n, false⟩) := rfl
      rw [h] at hpeek
      injection hpeek with h1 h2
      subst h1
      subst h2
      exact ⟨rfl, rfl, rfl, le_rfl, rfl, fun _ h2 => absurd rfl h2, by simp, rfl⟩
    | cons l rest =>
      have h : peek ⟨l :: rest, bl, n, false⟩ = (some l, ⟨rest, l, n + 1, true⟩) := rfl
      rw [h] at hpeek
      injection hpeek with h1 h2
      subst h1
      subst h2
      refine ⟨rfl, rfl, rfl, Nat.le_succ n, ?_, fun _ _ => rfl, by simp, ?_⟩
      · show n + 1 + rest.length = n + (l :: rest).length
        simp
        omega
      · show n + 1 + rest.length = n + (l :: rest).length
        simp
        omega

/-- Witness for C7 amended: peeking a fresh one-line reader yields the
buffered state, and peeking again returns the same line and state. -/
theorem c7_amended_witness :
    peek (⟨[], "a".toList, 1, true⟩ : Reader) =
      (some ("a".toList), (⟨[], "a".toList, 1, true⟩ : Reader)) :=
  (c7_amended [] (mkReader ["a".toList]) ⟨[], "a".toList, 1, true⟩ (some ("a".toList))
      rfl (by simp [mkReader])).2.1

theorem takeWhile_all {p : Char → Bool} :
    ∀ {l : List Char}, (∀ x ∈ l, p x = true) → l.takeWhile p = l := by
  intro l
  induction l with
  | nil => intro _; rfl
  | cons c cs ih =>
    intro h
    rw [List.takeWhile_cons_of_pos (h c (by simp)), ih (fun x hx => h x (by simp [hx]))]

theorem all_of_takeWhile_length {p : Char → Bool} :
    ∀ {l : List Char}, (l.takeWhile p).length = l.length → ∀ x ∈ l, p x = true := by
  intro l
  induction l with
  | nil => intro _ x hx; cases hx
  | cons c cs ih =>
    intro h x hx
    cases hc : p c with
    | false =>
      rw [List.takeWhile_cons_of_neg (by simp [hc])] at h
      simp at h
    | true =>
      rw [List.takeWhile_cons_of_pos hc] at h
      simp at h
      rcases List.mem_cons.mp hx with h1 | h1
      · subst h1
        exact hc
      · exact ih h x h1

theorem takeWhile_append_stop {p : Char → Bool} {c0 : Char} (hc : p c0 = false) :
    ∀ (ds suf : List Char), (∀ x ∈ ds, p x = true) → (ds ++ c0 :: suf).takeWhile p = ds := by
  intro ds
  induction ds with
  | nil =>
    intro suf _
    simp only [List.nil_append]
    rw [List.takeWhile_cons_of_neg (by simp [hc])]
  | cons d ds' ih =>
    intro suf h
    simp only [List.cons_append]
    rw [List.takeWhile_cons_of_pos (h d (by simp)), ih suf (fun x hx => h x (by simp [hx]))]

theorem from_chars_unsigned_view (t : IntTy) (c : Char) (cs : List Char)
    (hc : ¬ (c = '-' ∧ t.lo < 0)) :
    from_chars t (c :: cs) =
      (if ((c :: cs).takeWhile Char.isDigit).isEmpty then ⟨0, 0, .invalid_argument⟩
       else if (natOfDigits ((c :: cs).takeWhile Char.isDigit) : Int) < t.lo ∨
           t.hi < (natOfDigits ((c :: cs).takeWhile Char.isDigit) : Int) then
         ⟨0, ((c :: cs).takeWhile Char.isDigit).length, .result_out_of_range⟩
       else ⟨(natOfDigits ((c :: cs).takeWhile Char.isDigit) : Int),
         ((c :: cs).takeWhile Char.isDigit).length, .ok⟩) := by
  simp [from_chars, hc]

theorem from_chars_signed_view (t : IntTy) (cs : List Char) (hlo : t.lo < 0) :
    from_chars t ('-' :: cs) =
      (if (cs.takeWhile Char.isDigit).isEmpty then ⟨0, 0, .invalid_argument⟩
       else if (-(natOfDigits (cs.takeWhile Char.isDigit) : Int)) < t.lo ∨
           t.hi < -(natOfDigits (cs.takeWhile Char.isDigit) : Int) then
         ⟨0, 1 + (cs.takeWhile Char.isDigit).length, .result_out_of_range⟩
       else ⟨-(natOfDigits (cs.takeWhile Char.isDigit) : Int),
         1 + (cs.takeWhile Char.isDigit).length, .ok⟩) := by
  simp [from_chars, hlo]

theorem numeral_some {signed : Bool} :
    ∀ {text : List Char} {v : Int}, numeral signed text = some v →
      ((∀ x ∈ text, Char.isDigit x = true) ∧ text ≠ [] ∧ v = (natOfDigits text : Int)) ∨
      (signed = true ∧ ∃ cs, text = '-' :: cs ∧ cs ≠ [] ∧
        (∀ x ∈ cs, Char.isDigit x = true) ∧ v = -(natOfDigits cs : Int)) := by
  intro text v h
  cases text with
  | nil => simp [numeral] at h
  | cons c cs =>
    by_cases hc : c = '-'
    · subst hc
      right
      cases cs with
      | nil => simp [numeral] at h
      | cons d ds =>
        cases hsg : signed with
        | false => simp [numeral, hsg] at h
        | true =>
          cases hall : (d :: ds).all Char.isDigit with
          | false => simp [numeral, hsg, hall] at h
          | true =>
            have hv : v = -(natOfDigits (d :: ds) : Int) := by
              simp [numeral, hsg, hall] at h
              omega
            exact ⟨rfl, d :: ds, rfl, by simp, List.all_eq_true.mp hall, hv⟩
    · left
      cases hall : (c :: cs).all Char.isDigit with
      | false => simp [numeral, hc, hall] at h
      | true =>
        have hv : v = (natOfDigits (c :: cs) : Int) := by
          simp [numeral, hc, hall] at h
          omega
        exact ⟨List.all_eq_true.mp hall, by simp, hv⟩

theorem parse_num_of_ok_fc {t : IntTy} {text : List Char} {V : Int} {C : Nat}
    (hfc : from_chars t text = ⟨V, C, .ok⟩) :
    parse_num t text =
      if C = text.length then .ok (.num V) else .error (mkErr .parse_leftover) := by
  by_cases hC : C = text.length <;> simp [parse_num, hfc, hC]

theorem parse_num_of_err_fc {t : IntTy} {text : List Char} {V : Int} {C : Nat} {ec : Errc}
    (hfc : from_chars t text = ⟨V, C, ec⟩) (hec : ¬ ec = .ok) :
    parse_num t text =
      .error (mkErr (if ec = .result_out_of_range then .parse_out_of_range
        else .parse_unknown)) := by
  simp [parse_num, hfc, hec]

theorem parse_num_ok_inv (t : IntTy) (tok : List Char) (v : Value)
    (h : parse_num t tok = .ok v) :
    ∃ m, numeral (decide (t.lo < 0)) tok = some m ∧ v = .num m ∧ t.lo ≤ m ∧ m ≤ t.hi := by
  cases tok with
  | nil => simp [parse_num, from_chars] at h
  | cons c cs =>
    by_cases hcm : c = '-' ∧ t.lo < 0
    · obtain ⟨hc, hlo⟩ := hcm
      subst hc
      cases hds : (cs.takeWhile Char.isDigit).isEmpty with
      | true =>
        have hfc : from_chars t ('-' :: cs) = ⟨0, 0, .invalid_argument⟩ := by
          rw [from_chars_signed_view t cs hlo, if_pos hds]
        rw [parse_num_of_err_fc hfc (by decide)] at h
        simp at h
      | false =>
        by_cases hrange : ((-(natOfDigits (cs.takeWhile Char.isDigit) : Int)) < t.lo ∨
            t.hi < -(natOfDigits (cs.takeWhile Char.isDigit) : Int))
        · have hfc : from_chars t ('-' :: cs) =
              ⟨0, 1 + (cs.takeWhile Char.isDigit).length, .result_out_of_range⟩ := by
            rw [from_chars_signed_view t cs hlo, if_neg (by simp [hds]), if_pos hrange]
          rw [parse_num_of_err_fc hfc (by decide)] at h
          simp at h
        · have hfc : from_chars t ('-' :: cs) =
              ⟨-(natOfDigits (cs.takeWhile Char.isDigit) : Int),
                1 + (cs.takeWhile Char.isDigit).length, .ok⟩ := by
            rw [from_chars_signed_view t cs hlo, if_neg (by simp [hds]), if_neg hrange]
          rw [parse_num_of_ok_fc hfc] at h
          by_cases hlen : 1 + (cs.takeWhile Char.isDigit).length = ('-' :: cs).length
          · rw [if_pos hlen] at h
            injection h with h3
            have hlen2 : (cs.takeWhile Char.isDigit).length = cs.length := by
              simp at hlen
              omega
            have hall : ∀ x ∈ cs, Char.isDigit x = true := all_of_takeWhile_length hlen2
            have htw : cs.takeWhile Char.isDigit = cs := takeWhile_all hall
            have hne : cs ≠ [] := by
              intro hnil
              subst hnil
              simp at hds
            rw [htw] at hrange h3
            refine ⟨-(natOfDigits cs : Int), ?_, h3.symm, ?_, ?_⟩
            · have hsg : decide (t.lo < 0) = true := decide_eq_true hlo
              cases cs with
              | nil => exact absurd rfl hne
              | cons d ds =>
                simp [numeral, hsg, List.all_eq_true.mpr hall]
            · omega
            · omega
          · rw [if_neg hlen] at h
            simp at h
    · cases hds : (((c :: cs)).takeWhile Char.isDigit).isEmpty with
      | true =>
        have hfc : from_chars t (c :: cs) = ⟨0, 0, .invalid_argument⟩ := by
          rw [from_chars_unsigned_view t c cs hcm, if_pos hds]
        rw [parse_num_of_err_fc hfc (by decide)] at h
        simp at h
      | false =>
        by_cases hrange : ((natOfDigits ((c :: cs).takeWhile Char.isDigit) : Int) < t.lo ∨
            t.hi < (natOfDigits ((c :: cs).takeWhile Char.isDigit) : Int))
        · have hfc : from_chars t (c :: cs) =
              ⟨0, ((c :: cs).takeWhile Char.isDigit).length, .result_out_of_range⟩ := by
            rw [from_chars_unsigned_view t c cs hcm, if_neg (by simp [hds]), if_pos hrange]
          rw [parse_num_of_err_fc hfc (by decide)] at h
          simp at h
        · have hfc : from_chars t (c :: cs) =
              ⟨(natOfDigits ((c :: cs).takeWhile Char.isDigit) : Int),
                ((c :: cs).takeWhile Char.isDigit).length, .ok⟩ := by
            rw [from_chars_unsigned_view t c cs hcm, if_neg (by simp [hds]), if_neg hrange]
          rw [parse_num_of_ok_fc hfc] at h
          by_cases hlen : ((c :: cs).takeWhile Char.isDigit).length = (c :: cs).length
          · rw [if_pos hlen] at h
            injection h with h3
            have hall : ∀ x ∈ c :: cs, Char.isDigit x = true := all_of_takeWhile_length hlen
            have htw : (c :: cs).takeWhile Char.isDigit = c :: cs := takeWhile_all hall
            have hcne : ¬ (c = '-') := by
              intro hcd
              have hdig := hall c (by simp)
              rw [hcd] at hdig
              exact absurd hdig (by decide)
            rw [htw] at hrange h3
            refine ⟨(natOfDigits (c :: cs) : Int), ?_, h3.symm, ?_, ?_⟩
            · simp [numeral, hcne, List.all_eq_true.mpr hall]
            · omega
            · omega
          · rw [if_neg hlen] at h
            simp at h

theorem parse_num_leftover (t : IntTy) (tok : List Char) (c0 : Char) (suf2 : List Char)
    (n : Int) (hn : numeral (decide (t.lo < 0)) tok = some n)
    (hlon : t.lo ≤ n) (hhin : n ≤ t.hi) (hc0 : c0.isDigit = false) :
    parse_num t (tok ++ c0 :: suf2) = .error (mkErr .parse_leftover) := by
  rcases numeral_some hn with ⟨hall, hne, hv⟩ | ⟨hsg, cs, rfl, hne, hall, hv⟩
  · subst hv
    cases tok with
    | nil => exact absurd rfl hne
    | cons d ds =>
      have hd : Char.isDigit d = true := hall d (by simp)
      have hdm : ¬ (d = '-' ∧ t.lo < 0) := by
        rintro ⟨rfl, _⟩
        exact absurd hd (by decide)
      have htw : ((d :: ds) ++ c0 :: suf2).takeWhile Char.isDigit = d :: ds :=
        takeWhile_append_stop hc0 (d :: ds) suf2 hall
      have hfc : from_chars t ((d :: ds) ++ c0 :: suf2) =
          ⟨(natOfDigits (d :: ds) : Int), (d :: ds).length, .ok⟩ := by
        rw [show (d :: ds) ++ c0 :: suf2 = d :: (ds ++ c0 :: suf2) from rfl,
          from_chars_unsigned_view t d (ds ++ c0 :: suf2) hdm,
          show d :: (ds ++ c0 :: suf2) = (d :: ds) ++ c0 :: suf2 from rfl, htw,
          if_neg (by simp), if_neg (by omega)]
      rw [parse_num_of_ok_fc hfc, if_neg (by simp)]
  · have hlo2 : t.lo < 0 := of_decide_eq_true hsg
    subst hv
    cases cs with
    | nil => exact absurd rfl hne
    | cons d ds =>
      have htw : ((d :: ds) ++ c0 :: suf2).takeWhile Char.isDigit = d :: ds :=
        takeWhile_append_stop hc0 (d :: ds) suf2 hall
      have hfc : from_chars t ('-' :: ((d :: ds) ++ c0 :: suf2)) =
          ⟨-(natOfDigits (d :: ds) : Int), 1 + (d :: ds).length, .ok⟩ := by
        rw [from_chars_signed_view t ((d :: ds) ++ c0 :: suf2) hlo2, htw,
          if_neg (by simp), if_neg (by omega)]
      rw [show ('-' :: (d :: ds)) ++ c0 :: suf2 = '-' :: ((d :: ds) ++ c0 :: suf2) from rfl,
        parse_num_of_ok_fc hfc, if_neg (by simp; omega)]

theorem parse_num_oor (t : IntTy) (tok : List Char) (n : Int)
    (hn : numeral (decide (t.lo < 0)) tok = some n) (hr : n < t.lo ∨ t.hi < n) :
    parse_num t tok = .error (mkErr .parse_out_of_range) := by
  rcases numeral_some hn with ⟨hall, hne, hv⟩ | ⟨hsg, cs, rfl, hne, hall, hv⟩
  · subst hv
    cases tok with
    | nil => exact absurd rfl hne
    | cons d ds =>
      have hd : Char.isDigit d = true := hall d (by simp)
      have hdm : ¬ (d = '-' ∧ t.lo < 0) := by
        rintro ⟨rfl, _⟩
        exact absurd hd (by decide)
      have htw : (d :: ds).takeWhile Char.isDigit = d :: ds := takeWhile_all hall
      have hfc : from_chars t (d :: ds) =
          ⟨0, (d :: ds).length, .result_out_of_range⟩ := by
        rw [from_chars_unsigned_view t d ds hdm, htw, if_neg (by simp), if_pos hr]
      rw [parse_num_of_err_fc hfc (by decide)]
      rfl
  · have hlo2 : t.lo < 0 := of_decide_eq_true hsg
    subst hv
    cases cs with
    | nil => exact absurd rfl hne
    | cons d ds =>
      have htw : (d :: ds).takeWhile Char.isDigit = d :: ds := takeWhile_all hall
      have hfc : from_chars t ('-' :: d :: ds) =
          ⟨0, 1 + (d :: ds).length, .result_out_of_range⟩ := by
        rw [from_chars_signed_view t (d :: ds) hlo2, htw, if_neg (by simp), if_pos hr]
      rw [parse_num_of_err_fc hfc (by decide)]
      rfl

/-- C6: for every integer field type (any range, signed or unsigned) the
`from_chars`-based conversion parses the entire token as the number: a
successful parse means the token is exactly a full numeral whose value is
returned and lies in the type's range; a token that is a valid in-range
numeral followed by a non-consumed (non-digit-starting) suffix fails with
the `leftover` parse error; a full numeral whose value falls outside the
type's range fails with the `out of range` parse error — an error kind
distinct from the generic `parse error` and from `leftover`. -/
theorem c6_numeric_conversion (t : IntTy) (tok tok2 suf : List Char) (c0 : Char)
    (n m0 : Int) (v : Value) :
    (parse_num t tok = .ok v →
      ∃ m, numeral (decide (t.lo < 0)) tok = some m ∧ v = .num m ∧ t.lo ≤ m ∧ m ≤ t.hi) ∧
    (numeral (decide (t.lo < 0)) tok = some n → t.lo ≤ n → n ≤ t.hi →
      suf.head? = some c0 → c0.isDigit = false →
      parse_num t (tok ++ suf) = .error (mkErr .parse_leftover)) ∧
    (numeral (decide (t.lo < 0)) tok2 = some m0 → (m0 < t.lo ∨ t.hi < m0) →
      parse_num t tok2 = .error (mkErr .parse_out_of_range)) ∧
    ErrKind.parse_out_of_range ≠ ErrKind.parse_unknown ∧
    ErrKind.parse_leftover ≠ ErrKind.parse_unknown ∧
    ErrKind.parse_out_of_range ≠ ErrKind.parse_leftover := by
  refine ⟨parse_num_ok_inv t tok v, ?_, parse_num_oor t tok2 m0, by decide, by decide, by decide⟩
  intro hn hlon hhin hhead hc0
  cases suf with
  | nil => simp at hhead
  | cons c1 suf2 =>
    have hc1 : c1 = c0 := by simpa using hhead
    subst hc1
    exact parse_num_leftover t tok c1 suf2 n hn hlon hhin hc0

/-- Witness for C6 on `unsigned char` (range 0..255): `"12"` parses to 12,
`"12x"` fails with the leftover error, `"999"` fails with the out-of-range
error. -/
theorem c6_numeric_conversion_witness :
    (∃ m, numeral (decide ((⟨0, 255⟩ : IntTy).lo < 0)) ("12".toList) = some m ∧
      Value.num 12 = .num m ∧ (⟨0, 255⟩ : IntTy).lo ≤ m ∧ m ≤ (⟨0, 255⟩ : IntTy).hi) ∧
    parse_num ⟨0, 255⟩ ("12".toList ++ "x".toList) = .error (mkErr .parse_leftover) ∧
    parse_num ⟨0, 255⟩ ("999".toList) = .error (mkErr .parse_out_of_range) := by
  have h := c6_numeric_conversion ⟨0, 255⟩ ("12".toList) ("999".toList) ("x".toList)
    'x' 12 999 (.num 12)
  exact ⟨h.1 (by decide),
    h.2.1 (by decide) (by decide) (by decide) (by decide) (by decide),
    h.2.2.1 (by decide) (by decide)⟩

end Tsv
